import Mathlib

/-!
Verification development for the miniwfs feature server.

This file gives a shallow embedding, in Lean 4, of the parts of the Go
source that the specification talks about:

* the feature-ID derivation of `readCollection` and `getIDString`
  (`index.go`, latest revision),
* the query path `Index.GetItems` together with `FormatItemsURL`,
  including the conditional-request checks, the bbox scan loop, the
  pagination cursor and the self/next links,
* the `Index.Close` / `Index.GetItem` / `Index.GetTile` outcomes,
* the sharded LRU `TileCache` of `tiles.go`,
* the `computeBounds` geometry walk of `geometry.go`,
* the conditional-reload contract of `readCollection` and
  `Index.reloadIfChanged`.

Machine integers of the Go code are modelled as `Nat`/`Int`, except
that the tile cache's `int32` counter keeps its two's-complement
wraparound explicitly (`wrap32`/`int32Add`); Go time values are
modelled as integer nanoseconds with `time.Time.Round` translated
literally; `s2.Rect` values are abstracted by the operations
the scanned code actually performs on them (intersection tests enter the
query loop only through the per-feature Boolean `bbox.Intersects`, which
is therefore a parameter of the embedding), and the rectangle algebra of
`computeBounds` is kept as an explicit operation record so that the
data flow of the source, including a discarded call result, is preserved
verbatim.  External collaborators (URL escaping, PNG encoding, the file
system) are parameters or small explicit models, as the specification
itself declares them external.
-/

namespace MiniWFS

/-! ### Go time values

A `time.Time` is modelled by its nanosecond count; the zero value is `0`.
`goRoundSec` is `t.Round(time.Second)` as implemented in the Go standard
library: round to the nearest multiple of a second, half away from zero
(`lessThanHalf r d` is `r+r < d`). -/

def nsPerSec : Nat := 1000000000

def goRoundSec (t : Nat) : Nat :=
  let r := t % nsPerSec
  if r + r < nsPerSec then t - r else t + (nsPerSec - r)

/-! ### Feature IDs: `getIDString` and the `byID` map

`getIDString` is `index.go`'s type switch over the dynamic type of the
feature ID.  A Go `interface` value is modelled by `GoValue`; the only
payloads that matter to the code are `string` and `int64`. -/

inductive GoValue
  | str (s : String)
  | int64 (n : Int)
  | float64 (q : ℚ)
  | boolean (b : Bool)
  | null
  | arrayVal
  | objectVal
  deriving DecidableEq, Repr

def getIDString : GoValue → String
  | GoValue.str s => s
  | GoValue.int64 n => toString n
  | _ => ""

structure GoFeature where
  fid : GoValue
  props : List (String × GoValue)
  deriving DecidableEq, Repr

/-- Access to `f.Properties[k]`: a missing key yields the zero value of
`interface` (`nil`), modelled by `GoValue.null`. -/
def propLookup (props : List (String × GoValue)) (k : String) : GoValue :=
  match props.find? (fun p => p.1 == k) with
  | some p => p.2
  | none => GoValue.null

/-- The `coll.id` array built by `readCollection`: entry `i` is
`getIDString(f.ID)` for feature `i` (and stays the zero value `""` when
that is empty). -/
def collIDs (fs : List GoFeature) : List String :=
  fs.map (fun f => getIDString f.fid)

/-- The `coll.byID` Go map built by `readCollection`: iterating features
in order, `byID[id] = i` whenever `len(id) > 0`.  A later assignment to
the same key overwrites an earlier one, so lookups prefer the larger
index.  `buildByIDAux n ids k` is the lookup of `k` in the map built
from `ids`, whose positions are numbered starting at `n`. -/
def buildByIDAux : Nat → List String → String → Option Nat
  | _, [], _ => none
  | n, idv :: rest, k =>
    match buildByIDAux (n + 1) rest k with
    | some j => some j
    | none => if 0 < idv.length ∧ k = idv then some n else none

def buildByID (ids : List String) : String → Option Nat :=
  buildByIDAux 0 ids

/-- Stated from the words of the specification (not from the source), for
comparison with the source behaviour: derive a feature ID by trying, in
order, the feature's own identifier, a property named `id`, and a
property named `.id`, first non-empty value winning. -/
def claimDeriveID (f : GoFeature) : String :=
  let a := getIDString f.fid
  if 0 < a.length then a
  else
    let b := getIDString (propLookup f.props "id")
    if 0 < b.length then b
    else getIDString (propLookup f.props ".id")

/-! ### `FormatItemsURL`

The URL template builder of `wfs.go`.  `url.QueryEscape` and
`url.PathEscape` are Go standard library collaborators and enter as the
function parameters `qe` and `pe`; the `bbox=` parameter is a printed
float quadruple in the source and enters as the already-printed
`bboxParam` (`none` models a full bbox or an empty rectangle, for which
the source emits no parameter). -/

def DefaultLimit : Nat := 10

def MaxLimit : Int := 10000

def formatItemsURL (qe pe : String → String) (pfx collName startID : String)
    (start limit : Nat) (bboxParam : Option String) : String :=
  let params : List String :=
    (if 0 < startID.length then ["startID=" ++ qe startID] else [])
      ++ (if 0 < start then ["start=" ++ toString start] else [])
      ++ (if limit ≠ DefaultLimit then ["limit=" ++ toString limit] else [])
      ++ (match bboxParam with
          | some b => ["bbox=" ++ b]
          | none => [])
  let u := pfx ++ "collections/" ++ pe collName ++ "/items"
  if 0 < params.length then u ++ "?" ++ String.intercalate "&" params else u

/-! ### `Index.GetItems`

The collection data the query path reads: the parallel `id` array and the
last-modified time.  The per-feature rectangles appear in `GetItems`
only through `bbox.Intersects(coll.bbox[i])`, which is the Boolean
parameter `mt` of the embedding (one fixed query bbox induces one such
predicate).  Output to the `io.Writer` is recorded as a list of write
events in source order. -/

structure GoColl where
  ids : List String
  lastModifiedNs : Nat
  deriving DecidableEq, Repr

inductive GIErr
  | notFound
  | modified
  | notModified
  deriving DecidableEq, Repr

inductive Wr
  | header
  | comma
  | featureBytes (i : Nat)
  | arrayEnd
  | footer (selfHref : String) (nextHref : Option String)
  deriving DecidableEq, Repr

structure GIRes where
  err : Option GIErr
  writes : List Wr
  emitted : List Nat
  nextCursor : Option (String × Nat)
  deriving DecidableEq, Repr

/-- The scan loop of `GetItems` over feature indices `idxs` (in source
order).  Features failing the bbox test are passed over; once `limit`
features have been emitted the loop records the current feature's ID and
index as the next cursor and breaks; otherwise the first `skip` matching
features are skipped and the rest emitted.  Returns the emitted indices,
`nextID` and `nextIndex` (both zero-valued when no break occurred). -/
def giScan (mt : Nat → Bool) (ids : List String) (limit : Nat) :
    List Nat → Nat → List Nat → List Nat × String × Nat
  | [], _, emitted => (emitted.reverse, "", 0)
  | i :: rest, skip, emitted =>
    if mt i = false then giScan mt ids limit rest skip emitted
    else if limit ≤ emitted.length then (emitted.reverse, ids.getD i "", i)
    else if 0 < skip then giScan mt ids limit rest (skip - 1) emitted
    else giScan mt ids limit rest skip (i :: emitted)

/-- The feature part of the streamed output: first feature without a
separator, every further one preceded by a comma. -/
def emitWrites : List Nat → List Wr
  | [] => []
  | i :: rest =>
    Wr.featureBytes i :: (rest.map (fun j => [Wr.comma, Wr.featureBytes j])).flatten

def getItems (collOpt : Option GoColl) (mt : Nat → Bool) (startID : String)
    (startIndex limit : Int) (ims ius : Nat) (bboxParam : Option String)
    (qe pe : String → String) (pfx cname : String) : GIRes :=
  match collOpt with
  | none => ⟨some GIErr.notFound, [], [], none⟩
  | some coll =>
    let lm := goRoundSec coll.lastModifiedNs
    if ius ≠ 0 ∧ goRoundSec ius < lm then ⟨some GIErr.modified, [], [], none⟩
    else if ims ≠ 0 ∧ ¬ goRoundSec ims < lm then ⟨some GIErr.notModified, [], [], none⟩
    else
      let limitN : Nat := (if limit < 1 then 1 else if MaxLimit < limit then MaxLimit else limit).toNat
      let si : Int :=
        if 0 < startID.length then
          match buildByID coll.ids startID with
          | some i => (i : Int)
          | none => startIndex
        else startIndex
      let skip : Nat := si.toNat
      let scanRes := giScan mt coll.ids limitN (List.range coll.ids.length) skip []
      let selfHref := formatItemsURL qe pe pfx cname startID skip limitN bboxParam
      let nextHref : Option String :=
        if 0 < scanRes.2.2 then
          some (formatItemsURL qe pe pfx cname scanRes.2.1 scanRes.2.2 limitN bboxParam)
        else none
      let cursor : Option (String × Nat) :=
        if 0 < scanRes.2.2 then some (scanRes.2.1, scanRes.2.2) else none
      ⟨none, Wr.header :: emitWrites scanRes.1 ++ [Wr.arrayEnd, Wr.footer selfHref nextHref],
        scanRes.1, cursor⟩

/-- The paging client of the pagination property: issue a request with
the given cursor, and while the response carries a next link, feed its
`startID` and `startIndex` back in, concatenating the emitted features.
`fuel` bounds the number of pages followed. -/
def paginate (coll : GoColl) (mt : Nat → Bool) (limit : Int) :
    Nat → String × Int → List Nat
  | 0, _ => []
  | fuel + 1, cursor =>
    let r := getItems (some coll) mt cursor.1 cursor.2 limit 0 0 none
      (fun s => s) (fun s => s) "" ""
    match r.nextCursor with
    | none => r.emitted
    | some nc => r.emitted ++ paginate coll mt limit fuel (nc.1, (nc.2 : Int))

/-- The features a bbox query should deliver: indices whose precomputed
rectangle intersects the query bbox, in storage order. -/
def matchingIndices (mt : Nat → Bool) (n : Nat) : List Nat :=
  (List.range n).filter mt

/-! ### The sharded LRU `TileCache` of `tiles.go`

128 shards, each a recency list (front = most recent).  The global
`size` counter is the `int32` manipulated with `atomic.AddInt32` in the
source; `int32` addition wraps around in two's complement, and the model
keeps that wraparound (`int32Add`), representing `int32` values as the
integers in `[-2^31, 2^31)`.  Sequential executions of `Get`/`Put` are
modelled. -/

/-- Two's-complement wraparound to the `int32` range `[-2^31, 2^31)`. -/
def wrap32 (n : Int) : Int :=
  (n + 2147483648) % 4294967296 - 2147483648

/-- `atomic.AddInt32`: `int32` addition, wrapping on overflow. -/
def int32Add (a b : Int) : Int :=
  wrap32 (a + b)

structure TileKey where
  x : Nat
  y : Nat
  zoom : Nat
  deriving DecidableEq, Repr

def getShard (key : TileKey) : Nat :=
  (key.x ^^^ key.y ^^^ (key.zoom <<< 4)) &&& 127

/-- The cache state: `maxSize` and `size` are the two `int32` fields of
the source, represented as integers in `[-2^31, 2^31)`; every update of
`size` goes through the wrapping `int32Add`. -/
structure TileCache (V : Type) where
  maxSize : Int
  shards : List (List (TileKey × V))
  size : Int
  deriving DecidableEq, Repr

def newTileCache (V : Type) (maxSize : Int) : TileCache V :=
  ⟨maxSize, List.replicate 128 [], 0⟩

def lookupSh {V : Type} : List (TileKey × V) → TileKey → Option V
  | [], _ => none
  | e :: rest, k => if e.1 = k then some e.2 else lookupSh rest k

def removeSh {V : Type} : List (TileKey × V) → TileKey → List (TileKey × V)
  | [], _ => []
  | e :: rest, k => if e.1 = k then rest else e :: removeSh rest k

/-- `TileCache.Get`: on a hit, move the entry to the front of its
shard's recency list and return its bytes. -/
def TileCache.get {V : Type} (st : TileCache V) (k : TileKey) : TileCache V × Option V :=
  let s := getShard k
  let sh := st.shards.getD s []
  match lookupSh sh k with
  | some v => (⟨st.maxSize, st.shards.set s ((k, v) :: removeSh sh k), st.size⟩, some v)
  | none => (st, none)

/-- `TileCache.Put`: update-and-move-to-front on a hit; otherwise push
the new entry to the front and increment the global `int32` counter
(wrapping), and if it now exceeds `maxSize`, evict the back of this
shard's list unless the back is the entry just inserted, decrementing
the counter (wrapping). -/
def TileCache.put {V : Type} (st : TileCache V) (k : TileKey) (v : V) : TileCache V :=
  let s := getShard k
  let sh := st.shards.getD s []
  match lookupSh sh k with
  | some _ => ⟨st.maxSize, st.shards.set s ((k, v) :: removeSh sh k), st.size⟩
  | none =>
    let size1 := int32Add st.size 1
    if st.maxSize < size1 ∧ sh.isEmpty = false then
      ⟨st.maxSize, st.shards.set s ((k, v) :: sh.dropLast), int32Add size1 (-1)⟩
    else
      ⟨st.maxSize, st.shards.set s ((k, v) :: sh), size1⟩

inductive TCOp (V : Type)
  | get (k : TileKey)
  | put (k : TileKey) (v : V)

def tcStep {V : Type} (st : TileCache V) : TCOp V → TileCache V
  | TCOp.get k => (TileCache.get st k).1
  | TCOp.put k v => TileCache.put st k v

def runTC (V : Type) (maxSize : Int) (ops : List (TCOp V)) : TileCache V :=
  ops.foldl tcStep (newTileCache V maxSize)

def entryCount {V : Type} (st : TileCache V) : Nat :=
  (st.shards.map List.length).sum

def nonemptyShards {V : Type} (st : TileCache V) : Nat :=
  (st.shards.filter (fun sh => !sh.isEmpty)).length

/-- The inductive invariant behind the cache-size bound: the stored
capacity is the configured one, there are 128 shards, the global counter
agrees with the number of entries, and the entry count is within
capacity except for an excess bounded by the number of occupied shards
minus one. -/
def tcInv {V : Type} (ms : Int) (st : TileCache V) : Prop :=
  st.maxSize = ms ∧ st.shards.length = 128 ∧ st.size = (entryCount st : Int) ∧
    ((entryCount st : Int) ≤ ms ∨
      (entryCount st : Int) + 1 ≤ ms + (nonemptyShards st : Int))

/-! ### `computeBounds` of `geometry.go`

Coordinates are degree values, modelled by `ℚ`.  The `s2` rectangle
algebra is external library code; it enters as the operation record
`RectOps`, applied exactly as the source applies it (`AddPoint` receives
`(p[1], p[0])`, i.e. latitude then longitude).  Note the source line
`s2.ExpandForSubregions(r)` whose result is not assigned; the embedding
keeps the call and the discard. -/

structure RectOps (ρ : Type) where
  emptyRect : ρ
  addPoint : ρ → ℚ → ℚ → ρ
  union : ρ → ρ → ρ
  expandForSubregions : ρ → ρ

def computeLineBounds {ρ : Type} (ops : RectOps ρ) (line : List (List ℚ)) : ρ :=
  line.foldl
    (fun r p => if 2 ≤ p.length then ops.addPoint r (p.getD 1 0) (p.getD 0 0) else r)
    ops.emptyRect

inductive Geometry
  | point (p : List ℚ)
  | multiPoint (ps : List (List ℚ))
  | lineString (line : List (List ℚ))
  | multiLineString (lines : List (List (List ℚ)))
  | polygon (rings : List (List (List ℚ)))
  | multiPolygon (polys : List (List (List (List ℚ))))
  | geomCollection (gs : List Geometry)

/-- `r` after folding `r = r.Union(computeLineBounds(ring))` over the
given rings, starting from `start`. -/
def ringsUnion {ρ : Type} (ops : RectOps ρ) (start : ρ) (rings : List (List (List ℚ))) : ρ :=
  rings.foldl (fun r ring => ops.union r (computeLineBounds ops ring)) start

mutual

def computeBoundsG {ρ : Type} (ops : RectOps ρ) : Geometry → ρ
  | Geometry.point p =>
    if 2 ≤ p.length then ops.addPoint ops.emptyRect (p.getD 1 0) (p.getD 0 0)
    else ops.emptyRect
  | Geometry.multiPoint ps =>
    ps.foldl
      (fun r p => if 2 ≤ p.length then ops.addPoint r (p.getD 1 0) (p.getD 0 0) else r)
      ops.emptyRect
  | Geometry.lineString line => computeLineBounds ops line
  | Geometry.multiLineString lines =>
    lines.foldl (fun r line => ops.union r (computeLineBounds ops line)) ops.emptyRect
  | Geometry.polygon rings =>
    let r := ringsUnion ops ops.emptyRect rings
    let _ := ops.expandForSubregions r
    r
  | Geometry.multiPolygon polys => computeBoundsPolys ops ops.emptyRect polys
  | Geometry.geomCollection gs => computeBoundsList ops ops.emptyRect gs

/-- The `MultiPolygon` loop: `r` keeps accumulating across polygons; the
`s2.ExpandForSubregions(r)` after each polygon's rings is called and its
result discarded, as in the source. -/
def computeBoundsPolys {ρ : Type} (ops : RectOps ρ) (r : ρ) :
    List (List (List (List ℚ))) → ρ
  | [] => r
  | poly :: rest =>
    let r2 := ringsUnion ops r poly
    let _ := ops.expandForSubregions r2
    computeBoundsPolys ops r2 rest

def computeBoundsList {ρ : Type} (ops : RectOps ρ) (r : ρ) : List Geometry → ρ
  | [] => r
  | g :: gs => computeBoundsList ops (ops.union r (computeBoundsG ops g)) gs

end

def computeBounds {ρ : Type} (ops : RectOps ρ) : Option Geometry → ρ
  | none => ops.emptyRect
  | some g => computeBoundsG ops g

/-! ### `readCollection`'s conditional-reload contract and `reloadIfChanged`

The file system is a small explicit model: `modTimeNs = none` is a
failing `os.Stat`; `content = none` a failing `ReadFile`; `content =
some none` a malformed document; `content = some (some d)` a document
parsing to payload `d`.  The returned event list records which file
operations the procedure performed, in order. -/

structure FileSys where
  modTimeNs : Option Nat
  content : Option (Option Nat)
  deriving DecidableEq, Repr

inductive FsEv
  | stat
  | readFile
  | parse
  deriving DecidableEq, Repr

inductive LoadRes
  | ok (gen : Nat) (lastModifiedNs : Nat)
  | statErr
  | notModified
  | readErr
  | parseErr
  deriving DecidableEq, Repr

def readCollection (fs : FileSys) (ifModifiedSince : Nat) : LoadRes × List FsEv :=
  match fs.modTimeNs with
  | none => (LoadRes.statErr, [FsEv.stat])
  | some m =>
    if ¬ ifModifiedSince < m then (LoadRes.notModified, [FsEv.stat])
    else
      match fs.content with
      | none => (LoadRes.readErr, [FsEv.stat, FsEv.readFile])
      | some none => (LoadRes.parseErr, [FsEv.stat, FsEv.readFile, FsEv.parse])
      | some (some d) => (LoadRes.ok d m, [FsEv.stat, FsEv.readFile, FsEv.parse])

/-- `Index.reloadIfChanged`: reload with `ifModifiedSince` set to the
active store's last-modified time; replace the active store only on
success, leave the map untouched on `NotModified` or any other error. -/
def reloadIfChanged (imap : String → Option (Nat × Nat)) (name : String)
    (fs : FileSys) (lastModifiedNs : Nat) : String → Option (Nat × Nat) :=
  match (readCollection fs lastModifiedNs).1 with
  | LoadRes.ok g m => fun n => if n = name then some (g, m) else imap n
  | _ => imap

/-! ### `Index.Close`, `Index.GetItem`, `Index.GetTile` -/

structure Index where
  collections : String → Option GoColl

/-- `Index.Close` closes every collection and replaces the map with a
freshly made empty one. -/
def Index.close (_ : Index) : Index :=
  ⟨fun _ => none⟩

/-- `Index.GetItem`: an unknown collection or unknown ID yields
`(nil, nil)`; otherwise the feature's bytes are read from the backing
file and parsed (modelled by the feature's index). -/
def Index.getItem (ix : Index) (c fid : String) : Option Nat × Option Unit :=
  match ix.collections c with
  | none => (none, none)
  | some coll =>
    match buildByID coll.ids fid with
    | none => (none, none)
    | some i => (some i, none)

inductive TileRes
  | err (e : GIErr)
  | emptyTile
  | rendered (markers : List Nat)
  deriving DecidableEq, Repr

/-- `Index.GetTile`: unknown collection fails `NotFound`; otherwise the
features whose rectangle intersects the tile's bounds (the Boolean
parameter `mt`, one predicate per `(zoom, x, y)`) are drawn, and if none
matched the precomputed `emptyPNG` is returned instead of an encoded
context. -/
def Index.getTile (ix : Index) (c : String) (mt : Nat → Bool) : TileRes :=
  match ix.collections c with
  | none => TileRes.err GIErr.notFound
  | some coll =>
    let ms := (List.range coll.ids.length).filter mt
    if ms.isEmpty then TileRes.emptyTile else TileRes.rendered ms

/-! ### Concrete inputs used by the claim instances -/

/-- C1 failing input: three features with IDs `A`, `B`, `C`; the query
bbox intersects only features 1 and 2. -/
def c1Coll : GoColl := ⟨["A", "B", "C"], 0⟩

def c1Match : Nat → Bool := fun i => decide (0 < i)

/-- C8 scenario: three features with IDs `A`, `B`, `C` at distinct
locations; the request carries no bbox, so every feature matches. -/
def c8Coll : GoColl := ⟨["A", "B", "C"], 0⟩

def c8Match : Nat → Bool := fun _ => true

def c8Page1 : GIRes :=
  getItems (some c8Coll) c8Match "" 0 2 0 0 none
    (fun s => s) (fun s => s) "https://example.org/wfs/" "test"

def c8Page2 : GIRes :=
  getItems (some c8Coll) c8Match "C" 2 2 0 0 none
    (fun s => s) (fun s => s) "https://example.org/wfs/" "test"

/-- C6 counterexample input: 128 distinct keys hitting 128 distinct
shards. -/
def tcOps128 : List (TCOp Nat) :=
  (List.range 128).map (fun i => TCOp.put (TileKey.mk i 0 0) 0)

/-- C5 counterexample input: a feature with no identifier of its own but
with a property named `id`. -/
def c5Feature : GoFeature := ⟨GoValue.null, [("id", GoValue.str "X")]⟩

/-- C6 witness input: a capacity-1 cache whose shard 0 already holds one
entry (key `(128,0,0)` also hashes to shard 0). -/
def c6wSt : TileCache Nat :=
  ⟨1, (List.replicate 128 ([] : List (TileKey × Nat))).set 0 [(TileKey.mk 128 0 0, 7)], 1⟩

/-- C7 witness inputs: a file with modification time 5 (and readable,
parseable content), queried with threshold 7, over an index map holding
one store. -/
def c7File : FileSys := ⟨some 5, some (some 3)⟩

def c7Map : String → Option (Nat × Nat) := fun _ => some (1, 5)

/-! ## Helper lemmas -/

/-- Every lookup that succeeds in the `byID` map built from `ids`
(positions numbered from `n`) points at a position holding exactly the
looked-up key, which is non-empty. -/
theorem buildByIDAux_spec :
    ∀ (ids : List String) (n : Nat) (k : String) (j : Nat),
      buildByIDAux n ids k = some j →
      n ≤ j ∧ j - n < ids.length ∧ ids.getD (j - n) "" = k ∧ 0 < k.length := by
  intro ids
  induction ids with
  | nil => intro n k j h; simp [buildByIDAux] at h
  | cons x rest ih =>
    intro n k j h
    rw [buildByIDAux] at h
    revert h
    cases hr : buildByIDAux (n + 1) rest k with
    | some j2 =>
      intro h
      have hj : j2 = j := by simpa using h
      obtain ⟨h1, h2, h3, h4⟩ := ih (n + 1) k j2 hr
      rw [hj] at h1 h2 h3
      have hd : j - n = (j - (n + 1)) + 1 := by omega
      refine ⟨by omega, by simp; omega, ?_, h4⟩
      rw [hd, List.getD_cons_succ]
      exact h3
    | none =>
      intro h
      split_ifs at h with hx
      have hj : n = j := by simpa using h
      subst hj
      refine ⟨Nat.le_refl n, by simp, ?_, ?_⟩
      · simpa [Nat.sub_self] using hx.2.symm
      · exact hx.2 ▸ hx.1

/-- The `i`-th derived ID is `getIDString` of the `i`-th feature's own
identifier. -/
theorem collIDs_getD :
    ∀ (fs : List GoFeature) (i : Nat), i < fs.length →
      (collIDs fs).getD i "" = getIDString ((fs.getD i ⟨GoValue.null, []⟩).fid) := by
  intro fs
  induction fs with
  | nil => intro i h; simp at h
  | cons f rest ih =>
    intro i h
    cases i with
    | zero => simp [collIDs]
    | succ n =>
      simp only [collIDs, List.map_cons, List.getD_cons_succ]
      exact ih n (by simpa using Nat.lt_of_succ_lt_succ h)

theorem getShard_lt (k : TileKey) : getShard k < 128 := by
  have h : getShard k ≤ 127 := Nat.and_le_right
  omega

/-- Replacing the list at a valid position changes the total length sum
by the difference of the two entries (stated addition-only). -/
theorem sum_map_length_set {α : Type} :
    ∀ (l : List (List α)) (i : Nat) (a : List α), i < l.length →
      ((l.set i a).map List.length).sum + (l.getD i []).length
        = (l.map List.length).sum + a.length := by
  intro l
  induction l with
  | nil => intro i a h; simp at h
  | cons x xs ih =>
    intro i a h
    cases i with
    | zero => simp [List.set]; omega
    | succ n =>
      have hn : n < xs.length := by simpa using Nat.lt_of_succ_lt_succ h
      have h2 := ih n a hn
      simp only [List.set, List.map_cons, List.sum_cons, List.getD_cons_succ]
      omega

/-- Replacing the list at a valid position changes the filtered count by
the difference of the two indicator values (stated addition-only). -/
theorem filter_length_set {α : Type} (p : List α → Bool) :
    ∀ (l : List (List α)) (i : Nat) (a : List α), i < l.length →
      ((l.set i a).filter p).length + (if p (l.getD i []) then 1 else 0)
        = (l.filter p).length + (if p a then 1 else 0) := by
  intro l
  induction l with
  | nil => intro i a h; simp at h
  | cons x xs ih =>
    intro i a h
    cases i with
    | zero =>
      simp only [List.set, List.filter_cons, List.getD_cons_zero]
      split_ifs <;> simp [Nat.add_comm]
    | succ n =>
      have hn : n < xs.length := by simpa using Nat.lt_of_succ_lt_succ h
      have h2 := ih n a hn
      simp only [List.set, List.filter_cons, List.getD_cons_succ]
      cases hp : p x <;> simp only [hp, if_true, if_false, List.length_cons,
        Bool.false_eq_true, if_neg, ite_true, ite_false] <;> omega

theorem filter_set_same {α : Type} (p : List α → Bool) (l : List (List α)) (i : Nat)
    (a : List α) (h : i < l.length) (hp : p (l.getD i []) = p a) :
    ((l.set i a).filter p).length = (l.filter p).length := by
  have h2 := filter_length_set p l i a h
  rw [hp] at h2
  omega

theorem filter_set_fresh {α : Type} (p : List α → Bool) (l : List (List α)) (i : Nat)
    (a : List α) (h : i < l.length) (hpo : p (l.getD i []) = false) (hpa : p a = true) :
    ((l.set i a).filter p).length = (l.filter p).length + 1 := by
  have h2 := filter_length_set p l i a h
  rw [hpo, hpa] at h2
  simp at h2
  omega

theorem lookupSh_isEmpty_false {V : Type} :
    ∀ (l : List (TileKey × V)) (k : TileKey) (v : V),
      lookupSh l k = some v → l.isEmpty = false := by
  intro l k v h
  cases l with
  | nil => simp [lookupSh] at h
  | cons e rest => rfl

/-- A successful lookup means the move-to-front rebuild preserves the
shard's length. -/
theorem removeSh_length {V : Type} :
    ∀ (l : List (TileKey × V)) (k : TileKey) (v : V),
      lookupSh l k = some v → (removeSh l k).length + 1 = l.length := by
  intro l
  induction l with
  | nil => intro k v h; simp [lookupSh] at h
  | cons e rest ih =>
    intro k v h
    rw [lookupSh] at h
    rw [removeSh]
    split_ifs with he
    · rw [if_pos he] at h
      simp
    · rw [if_neg he] at h
      have h2 := ih k v h
      simp only [List.length_cons]
      omega

/-- With no occupied shard there are no entries at all. -/
theorem sum_zero_of_no_nonempty {α : Type} :
    ∀ (l : List (List α)),
      (l.filter (fun sh => !sh.isEmpty)).length = 0 → (l.map List.length).sum = 0 := by
  intro l
  induction l with
  | nil => intro h; rfl
  | cons x xs ih =>
    intro h
    rw [List.filter_cons] at h
    by_cases hx : x.isEmpty
    · have hx2 : x = [] := List.isEmpty_iff.mp hx
      subst hx2
      simp only [List.map_cons, List.sum_cons, List.length_nil, Nat.zero_add]
      exact ih (by simpa using h)
    · exfalso
      rw [if_pos (by simpa using hx)] at h
      simp at h

theorem wrap32_eq_self (n : Int) (hlo : -2147483648 ≤ n) (hhi : n ≤ 2147483647) :
    wrap32 n = n := by
  unfold wrap32
  omega

theorem wrap32_wrap32_add (a b : Int) : wrap32 (wrap32 a + b) = wrap32 (a + b) := by
  unfold wrap32
  omega

/-- Incrementing and then decrementing the wrapping counter restores the
previous `int32` value. -/
theorem int32Add_inc_dec (s : Int) (hlo : -2147483648 ≤ s) (hhi : s ≤ 2147483647) :
    int32Add (int32Add s 1) (-1) = s := by
  unfold int32Add
  rw [wrap32_wrap32_add]
  have h : s + 1 + -1 = s := by omega
  rw [h]
  exact wrap32_eq_self s hlo hhi

theorem tcInv_new (V : Type) (ms : Int) (hms : 1 ≤ ms) : tcInv ms (newTileCache V ms) := by
  refine ⟨rfl, by simp [newTileCache], ?_, Or.inl ?_⟩
  · simp [newTileCache, entryCount]
  · simp [newTileCache, entryCount]
    omega

/-- A hit (`Get`, or `Put` on a present key) moves an entry to the front
of its shard and preserves the invariant. -/
theorem tcInv_hit {V : Type} (ms : Int) (st : TileCache V) (k : TileKey) (v w : V)
    (h : tcInv ms st)
    (hl : lookupSh (st.shards.getD (getShard k) []) k = some v) :
    tcInv ms ⟨st.maxSize,
      st.shards.set (getShard k) ((k, w) :: removeSh (st.shards.getD (getShard k) []) k),
      st.size⟩ := by
  obtain ⟨hmax, hlen, hsz, hbound⟩ := h
  have hs : getShard k < st.shards.length := by rw [hlen]; exact getShard_lt k
  have hrl := removeSh_length _ k v hl
  have hne := lookupSh_isEmpty_false _ k v hl
  have hsum := sum_map_length_set st.shards (getShard k)
    ((k, w) :: removeSh (st.shards.getD (getShard k) []) k) hs
  have hfil : ((st.shards.set (getShard k)
        ((k, w) :: removeSh (st.shards.getD (getShard k) []) k)).filter
          (fun sh => !sh.isEmpty)).length
      = (st.shards.filter (fun sh => !sh.isEmpty)).length :=
    filter_set_same _ st.shards (getShard k) _ hs (by simp only [hne, List.isEmpty_cons])
  have hec : entryCount (TileCache.mk st.maxSize (st.shards.set (getShard k)
        ((k, w) :: removeSh (st.shards.getD (getShard k) []) k)) st.size : TileCache V)
      = entryCount st := by
    dsimp [entryCount]
    simp only [List.length_cons] at hsum
    omega
  have hnc : nonemptyShards (TileCache.mk st.maxSize (st.shards.set (getShard k)
        ((k, w) :: removeSh (st.shards.getD (getShard k) []) k)) st.size : TileCache V)
      = nonemptyShards st := by
    dsimp [nonemptyShards]
    exact hfil
  refine ⟨hmax, by simpa using hlen, ?_, ?_⟩
  · show st.size = _
    rw [hec]
    exact hsz
  · rw [hec, hnc]
    exact hbound

/-- One `Get` or `Put` preserves the invariant, provided the capacity
leaves the `int32` counter room for the bounded excess (so that no
increment ever wraps). -/
theorem tcInv_step {V : Type} (ms : Int) (hms : 1 ≤ ms) (hms2 : ms + 128 ≤ 2147483647)
    (st : TileCache V) (op : TCOp V) (h : tcInv ms st) : tcInv ms (tcStep st op) := by
  have hE0 : nonemptyShards st = 0 → entryCount st = 0 := fun h0 =>
    sum_zero_of_no_nonempty st.shards h0
  obtain ⟨hmax, hlen, hsz, hbound⟩ := h
  cases op with
  | get k =>
    dsimp only [tcStep, TileCache.get]
    cases hl : lookupSh (st.shards.getD (getShard k) []) k with
    | none => exact ⟨hmax, hlen, hsz, hbound⟩
    | some v => exact tcInv_hit ms st k v v ⟨hmax, hlen, hsz, hbound⟩ hl
  | put k v =>
    have hs : getShard k < st.shards.length := by rw [hlen]; exact getShard_lt k
    dsimp only [tcStep, TileCache.put]
    cases hl : lookupSh (st.shards.getD (getShard k) []) k with
    | some w => exact tcInv_hit ms st k w v ⟨hmax, hlen, hsz, hbound⟩ hl
    | none =>
      have hfle : nonemptyShards st ≤ 128 := by
        have h1 := List.length_filter_le (fun sh => !sh.isEmpty) st.shards
        dsimp [nonemptyShards]
        omega
      have hcb : (entryCount st : Int) ≤ ms + 127 := by
        rcases hbound with h | h <;> omega
      have h1 : int32Add st.size 1 = st.size + 1 := by
        unfold int32Add
        apply wrap32_eq_self <;> omega
      have h2 : int32Add (st.size + 1) (-1) = st.size := by
        unfold int32Add
        have hx : st.size + 1 + -1 = st.size := by omega
        rw [hx]
        apply wrap32_eq_self <;> omega
      rw [h1, h2]
      by_cases hc : st.maxSize < st.size + 1 ∧ (st.shards.getD (getShard k) []).isEmpty = false
      · rw [if_pos hc]
        have hpos : 0 < (st.shards.getD (getShard k) []).length := by
          cases hsh : st.shards.getD (getShard k) [] with
          | nil => rw [hsh] at hc; simp at hc
          | cons e rest => simp
        have hsum := sum_map_length_set st.shards (getShard k)
          ((k, v) :: (st.shards.getD (getShard k) []).dropLast) hs
        have hfil : ((st.shards.set (getShard k)
              ((k, v) :: (st.shards.getD (getShard k) []).dropLast)).filter
                (fun sh => !sh.isEmpty)).length
            = (st.shards.filter (fun sh => !sh.isEmpty)).length :=
          filter_set_same _ st.shards (getShard k) _ hs
            (by simp only [hc.2, List.isEmpty_cons])
        have hec : entryCount (TileCache.mk st.maxSize (st.shards.set (getShard k)
              ((k, v) :: (st.shards.getD (getShard k) []).dropLast)) st.size
              : TileCache V)
            = entryCount st := by
          dsimp [entryCount]
          simp only [List.length_cons, List.length_dropLast] at hsum ⊢
          omega
        have hnc : nonemptyShards (TileCache.mk st.maxSize (st.shards.set (getShard k)
              ((k, v) :: (st.shards.getD (getShard k) []).dropLast)) st.size
              : TileCache V)
            = nonemptyShards st := by
          dsimp [nonemptyShards]
          exact hfil
        refine ⟨hmax, by simpa using hlen, ?_, ?_⟩
        · show st.size = _
          rw [hec]
          exact hsz
        · rw [hec, hnc]
          exact hbound
      · rw [if_neg hc]
        have hsum := sum_map_length_set st.shards (getShard k)
          ((k, v) :: st.shards.getD (getShard k) []) hs
        have hec : entryCount (TileCache.mk st.maxSize (st.shards.set (getShard k)
              ((k, v) :: st.shards.getD (getShard k) [])) (st.size + 1) : TileCache V)
            = entryCount st + 1 := by
          dsimp [entryCount]
          simp only [List.length_cons] at hsum ⊢
          omega
        refine ⟨hmax, by simpa using hlen, ?_, ?_⟩
        · show st.size + 1 = _
          rw [hec]
          omega
        · rw [hec]
          by_cases hsh : (st.shards.getD (getShard k) []).isEmpty = true
          · have hfil : ((st.shards.set (getShard k)
                  ((k, v) :: st.shards.getD (getShard k) [])).filter
                    (fun sh => !sh.isEmpty)).length
                = (st.shards.filter (fun sh => !sh.isEmpty)).length + 1 :=
              filter_set_fresh _ st.shards (getShard k) _ hs
                (by simp only [hsh, Bool.not_true])
                (by simp only [List.isEmpty_cons, Bool.not_false])
            have hnc : nonemptyShards (TileCache.mk st.maxSize (st.shards.set (getShard k)
                  ((k, v) :: st.shards.getD (getShard k) [])) (st.size + 1) : TileCache V)
                = nonemptyShards st + 1 := by
              dsimp [nonemptyShards]
              exact hfil
            rw [hnc]
            rcases Nat.eq_zero_or_pos (nonemptyShards st) with hF | hF
            · have hcz := hE0 hF
              rw [hF, hcz]
              omega
            · omega
          · have hne : (st.shards.getD (getShard k) []).isEmpty = false := by
              cases hv : (st.shards.getD (getShard k) []).isEmpty
              · rfl
              · exact absurd hv hsh
            have hroom : ¬ st.maxSize < st.size + 1 := fun hlt => hc ⟨hlt, hne⟩
            have hfil : ((st.shards.set (getShard k)
                  ((k, v) :: st.shards.getD (getShard k) [])).filter
                    (fun sh => !sh.isEmpty)).length
                = (st.shards.filter (fun sh => !sh.isEmpty)).length :=
              filter_set_same _ st.shards (getShard k) _ hs
                (by simp only [hne, List.isEmpty_cons])
            have hnc : nonemptyShards (TileCache.mk st.maxSize (st.shards.set (getShard k)
                  ((k, v) :: st.shards.getD (getShard k) [])) (st.size + 1) : TileCache V)
                = nonemptyShards st := by
              dsimp [nonemptyShards]
              exact hfil
            rw [hnc]
            rw [hmax] at hroom
            omega

/-- The invariant holds after any sequence of cache operations. -/
theorem runTC_inv {V : Type} (ms : Int) (hms : 1 ≤ ms) (hms2 : ms + 128 ≤ 2147483647)
    (ops : List (TCOp V)) : tcInv ms (runTC V ms ops) := by
  suffices hgen : ∀ st, tcInv ms st → tcInv ms (ops.foldl tcStep st) from
    hgen _ (tcInv_new V ms hms)
  induction ops with
  | nil => intro st h; exact h
  | cons op rest ih => intro st h; exact ih _ (tcInv_step ms hms hms2 st op h)

/-- Unrolling the `MultiPolygon` accumulation into a plain fold (the
expansion calls leave no trace on the accumulator). -/
theorem computeBoundsPolys_eq_foldl {ρ : Type} (ops : RectOps ρ) :
    ∀ (polys : List (List (List (List ℚ)))) (r : ρ),
      computeBoundsPolys ops r polys
        = polys.foldl (fun acc poly => ringsUnion ops acc poly) r := by
  intro polys
  induction polys with
  | nil => intro r; rfl
  | cons poly rest ih =>
    intro r
    simp only [computeBoundsPolys, List.foldl_cons]
    exact ih (ringsUnion ops r poly)

/-- The `MultiPolygon` walk does not depend on the
`expandForSubregions` operation. -/
theorem computeBoundsPolys_expand_irrelevant {ρ : Type} (ops : RectOps ρ) (f : ρ → ρ) :
    ∀ (polys : List (List (List (List ℚ)))) (r : ρ),
      computeBoundsPolys { ops with expandForSubregions := f } r polys
        = computeBoundsPolys ops r polys := by
  intro polys
  induction polys with
  | nil => intro r; rfl
  | cons poly rest ih =>
    intro r
    simp only [computeBoundsPolys]
    exact ih (ringsUnion ops r poly)

/-! ## Claim C1 -/

/-- C1: pagination over all pages, following next links, is claimed to
emit exactly the bbox-matching features in storage order for every
collection, bbox and limit.  This fails on the code: with three features
carrying IDs `A`, `B`, `C`, a bbox intersecting only features 1 and 2,
and `limit = 1`, the concatenation of all pages is `[1]`, omitting
feature 2, because the loop decrements `skip` only on bbox-matching
features while the cursor's `startIndex` / `startID` denote a storage
position.  The code contradicts its own comment, which promises that
iteration starts at the feature whose index is `startIndex`. -/
theorem c1_pagination_omits_features :
    paginate c1Coll c1Match 1 5 ("", 0) = [1] ∧
      matchingIndices c1Match 3 = [1, 2] ∧
      paginate c1Coll c1Match 1 5 ("", 0) ≠ matchingIndices c1Match 3 := by
  decide

/-! ## Claim C4 -/

/-- C4: `computeBounds` on `Polygon` and `MultiPolygon` geometries is
claimed to return the union of the ring bounds *expanded* by
`s2.ExpandForSubregions`.  In the code the result of
`s2.ExpandForSubregions(r)` is discarded (never assigned), so the
function returns exactly the plain union of per-ring point bounds: the
result is the unexpanded fold for every rectangle algebra, and replacing
the expansion operation by any function `f` whatsoever does not change
the result. -/
theorem c4_expand_for_subregions_discarded :
    ∀ (ρ : Type) (ops : RectOps ρ) (rings : List (List (List ℚ)))
      (polys : List (List (List (List ℚ)))) (f : ρ → ρ),
      computeBounds ops (some (Geometry.polygon rings))
          = ringsUnion ops ops.emptyRect rings ∧
      computeBounds ops (some (Geometry.multiPolygon polys))
          = polys.foldl (fun acc poly => ringsUnion ops acc poly) ops.emptyRect ∧
      computeBounds { ops with expandForSubregions := f } (some (Geometry.polygon rings))
          = computeBounds ops (some (Geometry.polygon rings)) ∧
      computeBounds { ops with expandForSubregions := f } (some (Geometry.multiPolygon polys))
          = computeBounds ops (some (Geometry.multiPolygon polys)) := by
  intro ρ ops rings polys f
  refine ⟨rfl, ?_, rfl, ?_⟩
  · simpa only [computeBounds, computeBoundsG] using
      computeBoundsPolys_eq_foldl ops polys ops.emptyRect
  · simpa only [computeBounds, computeBoundsG] using
      computeBoundsPolys_expand_irrelevant ops f polys ops.emptyRect

/-! ## Claim C5 -/

/-- C5 counterexample: the claim says a feature whose own identifier is
empty but which has a non-empty property named `id` derives that value
as its ID and receives an entry in the ID-to-index map.  In the code the
only source of an ID is the feature's own identifier, so this feature
receives no entry: the `id`-property value `X` resolves to nothing. -/
theorem c5_counterexample :
    claimDeriveID c5Feature = "X" ∧
      collIDs [c5Feature] = [""] ∧
      buildByID (collIDs [c5Feature]) "X" = none := by
  decide

/-- C5 (amended): the load procedure derives a feature's ID from the
feature's own identifier alone (`getIDString(f.ID)`); properties named
`id` or `.id` are never consulted.  Every entry of the ID-to-index map
points at a feature whose own identifier yields exactly that non-empty
ID; features whose identifier yields the empty string get no entry. -/
theorem c5_id_derivation_amended :
    ∀ (fs : List GoFeature) (k : String) (i : Nat),
      collIDs fs = fs.map (fun f => getIDString f.fid) ∧
        (buildByID (collIDs fs) k = some i →
          i < fs.length ∧ 0 < k.length ∧
            getIDString ((fs.getD i ⟨GoValue.null, []⟩).fid) = k) := by
  intro fs k i
  refine ⟨rfl, fun h => ?_⟩
  obtain ⟨_, h2, h3, h4⟩ := buildByIDAux_spec (collIDs fs) 0 k i h
  simp only [Nat.sub_zero] at h2 h3
  have hlen : (collIDs fs).length = fs.length := List.length_map _ _
  have hi : i < fs.length := hlen ▸ h2
  refine ⟨hi, h4, ?_⟩
  rw [← collIDs_getD fs i hi]
  exact h3

/-- C5 witness: a feature whose own identifier is the string `A` is
found at index 0 through the map. -/
theorem c5_id_derivation_amended_witness :
    0 < [GoFeature.mk (GoValue.str "A") []].length ∧ 0 < "A".length ∧
      getIDString (([GoFeature.mk (GoValue.str "A") []].getD 0 ⟨GoValue.null, []⟩).fid)
        = "A" :=
  (c5_id_derivation_amended [GoFeature.mk (GoValue.str "A") []] "A" 0).2 (by decide)

/-! ## Claim C2 -/

/-- C2: on an existing collection, `GetItems` evaluates the conditional
preconditions against the last-modified time rounded to one second
(Go's `Round(time.Second)`, applied to both sides of each comparison):
it fails `Modified` exactly when `ifUnmodifiedSince` is non-zero and the
rounded last-modified time is after it, otherwise fails `NotModified`
exactly when `ifModifiedSince` is non-zero and the rounded last-modified
time is not after it; a zero timestamp disables the corresponding
check, and in both failure cases nothing is written to the output sink
and no features are emitted. -/
theorem c2_conditional_preconditions :
    ∀ (ids : List String) (lmod : Nat) (mt : Nat → Bool) (sid : String)
      (sidx lim : Int) (ims ius : Nat) (bp : Option String)
      (qe pe : String → String) (pfx cn : String),
      ((getItems (some (GoColl.mk ids lmod)) mt sid sidx lim ims ius bp qe pe pfx cn).err
          = some GIErr.modified
        ↔ ius ≠ 0 ∧ goRoundSec ius < goRoundSec lmod) ∧
      ((getItems (some (GoColl.mk ids lmod)) mt sid sidx lim ims ius bp qe pe pfx cn).err
          = some GIErr.notModified
        ↔ ¬ (ius ≠ 0 ∧ goRoundSec ius < goRoundSec lmod) ∧
            ims ≠ 0 ∧ ¬ goRoundSec ims < goRoundSec lmod) ∧
      (((getItems (some (GoColl.mk ids lmod)) mt sid sidx lim ims ius bp qe pe pfx cn).err
            = some GIErr.modified ∨
          (getItems (some (GoColl.mk ids lmod)) mt sid sidx lim ims ius bp qe pe pfx cn).err
            = some GIErr.notModified) →
        (getItems (some (GoColl.mk ids lmod)) mt sid sidx lim ims ius bp qe pe pfx cn).writes
            = [] ∧
          (getItems (some (GoColl.mk ids lmod)) mt sid sidx lim ims ius bp qe pe pfx cn).emitted
            = []) := by
  intro ids lmod mt sid sidx lim ims ius bp qe pe pfx cn
  simp only [getItems]
  split_ifs with h1 h2 <;> simp_all

/-- C2 witness: with the collection last modified at 2 s and
`ifUnmodifiedSince` = 1 s, the call fails `Modified` and writes
nothing. -/
theorem c2_conditional_preconditions_witness :
    (getItems (some (GoColl.mk [] (2 * nsPerSec))) (fun _ => true) "" 0 10 0 nsPerSec none
        (fun s => s) (fun s => s) "" "").writes = [] ∧
      (getItems (some (GoColl.mk [] (2 * nsPerSec))) (fun _ => true) "" 0 10 0 nsPerSec none
          (fun s => s) (fun s => s) "" "").emitted = [] :=
  (c2_conditional_preconditions [] (2 * nsPerSec) (fun _ => true) "" 0 10 0 nsPerSec none
      (fun s => s) (fun s => s) "" "").2.2
    (Or.inl ((c2_conditional_preconditions [] (2 * nsPerSec) (fun _ => true) "" 0 10 0
        nsPerSec none (fun s => s) (fun s => s) "" "").1.mpr ⟨by decide, by decide⟩))

/-! ## Claim C6 -/

set_option maxRecDepth 40000 in
/-- C6 counterexample: the claimed bound `entry count ≤ maxSize +
(shards − 1)` fails for a cache created with capacity 0: inserting 128
distinct keys that hash to 128 distinct shards performs no eviction
(each shard's back is the entry just inserted), so the count reaches
128 > 0 + 127. -/
theorem c6_counterexample :
    entryCount (runTC Nat 0 tcOps128) = 128 ∧
      ¬ entryCount (runTC Nat 0 tcOps128) ≤ 0 + (128 - 1) := by
  decide

/-- C6 (amended): for every cache created with capacity `maxSize`
satisfying `1 ≤ maxSize` and `maxSize + 128 ≤ 2^31 − 1` (so the
wrapping `int32` size counter never overflows while the bound holds)
and every sequence of `Get` and `Put` operations, the entry count never
exceeds `maxSize` plus (number of shards − 1) = 127; and whenever a
`Put` of a new key raises the wrapping global counter above `maxSize`
while the target shard already holds an entry, that shard's
least-recently-used (back) entry is removed and the counter returns to
its previous value. -/
theorem c6_cache_bound_amended :
    (∀ (V : Type) (ms : Int) (ops : List (TCOp V)), 1 ≤ ms → ms + 128 ≤ 2147483647 →
      (entryCount (runTC V ms ops) : Int) ≤ ms + 127) ∧
      (∀ (V : Type) (st : TileCache V) (k : TileKey) (v : V),
        lookupSh (st.shards.getD (getShard k) []) k = none →
        st.maxSize < int32Add st.size 1 →
        (st.shards.getD (getShard k) []).isEmpty = false →
        -2147483648 ≤ st.size → st.size ≤ 2147483647 →
        (TileCache.put st k v).size = st.size ∧
          (TileCache.put st k v).shards
            = st.shards.set (getShard k)
                ((k, v) :: (st.shards.getD (getShard k) []).dropLast)) := by
  constructor
  · intro V ms ops hms hms2
    obtain ⟨_, hlen, _, hbound⟩ := runTC_inv ms hms hms2 ops
    have hfle : nonemptyShards (runTC V ms ops) ≤ 128 := by
      have h1 := List.length_filter_le (fun sh => !sh.isEmpty) (runTC V ms ops).shards
      dsimp [nonemptyShards]
      omega
    rcases hbound with h | h <;> omega
  · intro V st k v hl htrig hne hlo hhi
    dsimp only [TileCache.put]
    rw [hl]
    dsimp only
    rw [if_pos ⟨htrig, hne⟩]
    refine ⟨?_, rfl⟩
    show int32Add (int32Add st.size 1) (-1) = st.size
    exact int32Add_inc_dec st.size hlo hhi

/-- C6 witness: one insertion into a capacity-1 cache stays within the
bound, and a `Put` of a new key into the already-occupied shard of a
full capacity-1 cache evicts that shard's back entry and restores the
counter. -/
theorem c6_cache_bound_amended_witness :
    (entryCount (runTC Nat 1 [TCOp.put (TileKey.mk 0 0 0) 0]) : Int) ≤ 1 + 127 ∧
      ((TileCache.put c6wSt (TileKey.mk 0 0 0) 5).size = c6wSt.size ∧
        (TileCache.put c6wSt (TileKey.mk 0 0 0) 5).shards
          = c6wSt.shards.set (getShard (TileKey.mk 0 0 0))
              ((TileKey.mk 0 0 0, 5)
                :: (c6wSt.shards.getD (getShard (TileKey.mk 0 0 0)) []).dropLast)) :=
  ⟨c6_cache_bound_amended.1 Nat 1 [TCOp.put (TileKey.mk 0 0 0) 0] (by decide) (by decide),
    c6_cache_bound_amended.2 Nat c6wSt (TileKey.mk 0 0 0) 5 (by decide) (by decide)
      (by decide) (by decide) (by decide)⟩

/-! ## Claim C7 -/

/-- C7: given that the stat succeeds with modification time `m`,
`readCollection` fails `NotModified` exactly when `m` is not strictly
after the threshold, in that case performs only the stat (the file is
neither read nor parsed), and the reload task then leaves the active
store map unchanged. -/
theorem c7_not_modified_reload :
    ∀ (fs : FileSys) (thr m : Nat), fs.modTimeNs = some m →
      (((readCollection fs thr).1 = LoadRes.notModified) ↔ ¬ thr < m) ∧
        (¬ thr < m → (readCollection fs thr).2 = [FsEv.stat]) ∧
        (∀ (imap : String → Option (Nat × Nat)) (name : String),
          ¬ thr < m → reloadIfChanged imap name fs thr = imap) := by
  intro fs thr m h
  by_cases hm : thr < m
  · refine ⟨?_, fun hc => absurd hm hc, fun imap name hc => absurd hm hc⟩
    simp only [readCollection, h]
    rw [if_neg (by omega)]
    rcases hc : fs.content with _ | mc
    · simp [hc]
      omega
    · rcases mc with _ | d <;> simp [hc] <;> omega
  · have hres : readCollection fs thr = (LoadRes.notModified, [FsEv.stat]) := by
      simp only [readCollection, h]
      rw [if_pos hm]
    refine ⟨by rw [hres]; simpa using hm, fun _ => by rw [hres], fun imap name _ => ?_⟩
    simp only [reloadIfChanged, hres]

/-- C7 witness: a file last modified at time 5 reloaded with threshold 7
yields `NotModified` after only a stat, and the reload task leaves the
store map untouched. -/
theorem c7_not_modified_reload_witness :
    (readCollection c7File 7).1 = LoadRes.notModified ∧
      (readCollection c7File 7).2 = [FsEv.stat] ∧
      reloadIfChanged c7Map "castles" c7File 7 = c7Map :=
  ⟨(c7_not_modified_reload c7File 7 5 rfl).1.mpr (by decide),
    (c7_not_modified_reload c7File 7 5 rfl).2.1 (by decide),
    (c7_not_modified_reload c7File 7 5 rfl).2.2 c7Map "castles" (by decide)⟩

/-! ## Claim C8 -/

/-- C8 counterexample: for the three-feature collection `A`, `B`, `C`
with `limit = 2` and no cursor, the next link's `startID` parameter is
`C` (the first unemitted matching feature), not `B` as the claim
states. -/
theorem c8_counterexample :
    c8Page1.nextCursor.map Prod.fst = some "C" ∧
      ¬ c8Page1.nextCursor.map Prod.fst = some "B" := by
  decide

/-- C8 (amended): page one emits features `A` and `B` and produces a
next link encoding `startID=C` and `start=2`; following that next link
emits exactly feature `C` and produces no next link. -/
theorem c8_pagination_scenario_amended :
    c8Page1.emitted = [0, 1] ∧
      c8Page1.nextCursor = some ("C", 2) ∧
      c8Page1.writes =
        [Wr.header, Wr.featureBytes 0, Wr.comma, Wr.featureBytes 1, Wr.arrayEnd,
          Wr.footer "https://example.org/wfs/collections/test/items?limit=2"
            (some "https://example.org/wfs/collections/test/items?startID=C&start=2&limit=2")] ∧
      c8Page2.emitted = [2] ∧
      c8Page2.nextCursor = none ∧
      c8Page2.writes =
        [Wr.header, Wr.featureBytes 2, Wr.arrayEnd,
          Wr.footer "https://example.org/wfs/collections/test/items?startID=C&start=2&limit=2"
            none] := by
  decide

/-! ## Claim C9 -/

/-- C9: after `Close`, the collection map is the empty map, so every
`GetItem` returns no feature and no error, and every `GetItems` and
`GetTile` fails with `NotFound`; no query reaches a backing file. -/
theorem c9_queries_after_close :
    ∀ (ix : Index) (c fid : String) (mt : Nat → Bool) (sid : String)
      (sidx lim : Int) (ims ius : Nat) (bp : Option String)
      (qe pe : String → String) (pfx cn : String),
      (Index.close ix).collections c = none ∧
        Index.getItem (Index.close ix) c fid = (none, none) ∧
        (getItems ((Index.close ix).collections c) mt sid sidx lim ims ius bp qe pe
            pfx cn).err = some GIErr.notFound ∧
        Index.getTile (Index.close ix) c mt = TileRes.err GIErr.notFound :=
  fun _ _ _ _ _ _ _ _ _ _ _ _ _ _ => ⟨rfl, rfl, rfl, rfl⟩

/-! ## Claim C10 -/

/-- C10: the ID string used for the lookup map is the value itself for a
string identifier, the decimal representation for an `int64` identifier,
and empty for every other dynamic type — and consequently every map
entry points at a feature whose identifier yields that non-empty
string. -/
theorem c10_id_string_typing :
    (∀ s, getIDString (GoValue.str s) = s) ∧
      (∀ n : Int, getIDString (GoValue.int64 n) = toString n) ∧
      (∀ v : GoValue, (∀ s, v ≠ GoValue.str s) → (∀ n : Int, v ≠ GoValue.int64 n) →
        getIDString v = "") ∧
      (∀ (fs : List GoFeature) (k : String) (i : Nat),
        buildByID (collIDs fs) k = some i →
        0 < k.length ∧ getIDString ((fs.getD i ⟨GoValue.null, []⟩).fid) = k) := by
  refine ⟨fun s => rfl, fun n => rfl, ?_, ?_⟩
  · intro v hs hn
    cases v with
    | str s => exact absurd rfl (hs s)
    | int64 n => exact absurd rfl (hn n)
    | float64 q => rfl
    | boolean b => rfl
    | null => rfl
    | arrayVal => rfl
    | objectVal => rfl
  · intro fs k i h
    obtain ⟨_, h2, h3, h4⟩ := buildByIDAux_spec (collIDs fs) 0 k i h
    simp only [Nat.sub_zero] at h2 h3
    have hlen : (collIDs fs).length = fs.length := List.length_map _ _
    have hi : i < fs.length := hlen ▸ h2
    refine ⟨h4, ?_⟩
    rw [← collIDs_getD fs i hi]
    exact h3

/-- C10 witness: a `float64` identifier yields the empty string, and a
string identifier `A` is retrievable through the map. -/
theorem c10_id_string_typing_witness :
    getIDString (GoValue.float64 3) = "" ∧
      (0 < "A".length ∧
        getIDString (([GoFeature.mk (GoValue.str "A") []].getD 0 ⟨GoValue.null, []⟩).fid)
          = "A") :=
  ⟨c10_id_string_typing.2.2.1 (GoValue.float64 3)
      (fun s h => GoValue.noConfusion h) (fun n h => GoValue.noConfusion h),
    c10_id_string_typing.2.2.2 [GoFeature.mk (GoValue.str "A") []] "A" 0 (by decide)⟩

end MiniWFS
